import Mathlib

/-!
Verification of the incremental crawl / date-window / checkpointed-persistence
core of the `local-scrapper` repository.

The repository contains near-duplicate scraper scripts.  The definitions below
are shallow embeddings of the behaviourally relevant code:

* `processItem`, `processSection`, `runSections`, `runBT` embed the per-item
  acceptance logic and the section loop of `bangla_tribune.py` `main`
  (lines 179-304).  Raw items are inputs (the DOM extraction is an external
  collaborator); a raw item whose field extraction throws is simply absent
  from the input stream, matching the `except ... continue` handlers.
  External cancellation (SIGINT) only sets the `stop_requested` flag (the
  `signal_handler` functions never raise), so it is modelled as a boolean
  observed at the item boundary, carried on each input event.
* `save_progress` embeds the batch writer of `prothom_alo_scrapper.py`
  (lines 133-138) / `updated_somokal_scraper.py` (lines 109-115) /
  `bangla_tribune.py` (lines 127-137); `save_checkpoint` embeds the deviant
  writer of `7july_somokal_scirpt.py` (lines 109-114).
* `finalizeBT` / `finalizeRunBT` embed the final reconciliation pass of
  `bangla_tribune.py` (lines 307-318) and `prothom_alo_scrapper.py`
  (lines 271-284); `finalizeBB` embeds the variant order of operations in
  `bonikbarta_script.py` (lines 199-213).  `pandas.sort_values` is modelled
  by a deterministic comparison sort on the `published_date` key.
* `stallSteps` embeds the no-new-articles counter of `bangla_tribune.py`
  (lines 259-282).
* `load_processed_urls` embeds the ledger rehydration of `bangla_tribune.py`
  (lines 139-149), with `pandas.read_csv` modelled on the raw record grid and
  its exceptions routed into `Except`.
* `parse_samakal_date` embeds the Bengali date parser of `scraper.py`
  (lines 56-89), with `re.match` of `(\d{1,2})\s*(\w+)\s*(\d{4})` implemented
  with explicit backtracking and `datetime.strptime('%d %B %Y')` modelled by
  month-name lookup plus calendar validation; Python exceptions caught by the
  `except` clause are modelled by the `Option` result.

Dates are modelled as integers (any order-embedding of timestamps); CSV rows
are modelled at record level, a write/re-read round trip being the identity.
-/

/-- A candidate article as extracted from the page: canonical url, title,
description, and the already-normalized publication date (`none` when the
site-specific date parser failed). -/
structure Item where
  url : String
  title : String
  descr : String
  pub : Option Int
deriving DecidableEq, Repr

/-- One step of input to the ingestion loop: `sig` is true when a SIGINT was
delivered (the handler set `stop_requested`) before this item was examined. -/
structure Event where
  sig : Bool
  item : Item
deriving DecidableEq, Repr

/-- An event with no pending SIGINT. -/
def ev (it : Item) : Event := ⟨false, it⟩

/-- Run configuration: the date window `FROM_DATE`/`TO_DATE`, the optional
`--max-articles` cap and `BATCH_SIZE`. -/
structure Config where
  fromDate : Int
  toDate : Int
  maxArticles : Option Nat
  batchSize : Nat
deriving DecidableEq, Repr

/-- The mutable state of one scraper run: the global `stop_requested` flag,
the `processed_urls` set (a list used as a set), the in-memory
`articles_batch`, the rows appended so far to the main output CSV, the
checkpoint file contents, and (as a ghost field for specification only)
the list of items accepted so far in this run. -/
structure RunState where
  stopRequested : Bool
  processedUrls : List String
  batch : List Item
  store : List Item
  checkpoint : Option (List Item)
  accepted : List Item
deriving DecidableEq, Repr

/-- `args.max_articles and len(processed_urls) >= args.max_articles`:
Python truthiness makes a cap of `None` or `0` inert. -/
def capHit (cap : Option Nat) (n : Nat) : Bool :=
  match cap with
  | none => false
  | some m => if m = 0 then false else decide (m ≤ n)

/-- The body of the `for element in new_articles` loop of
`bangla_tribune.py:196-254`: skip already-processed urls, skip incomplete
items, set the global stop flag on an item older than `FROM_DATE`, accept
in-window items (recording the url, appending to the batch, checking the
cap — which `break`s — and otherwise flushing a full batch). -/
def processItem (cfg : Config) (s : RunState) (it : Item) : RunState :=
  if it.url ∈ s.processedUrls then s
  else match it.pub with
    | none => s
    | some d =>
      if it.url = "" ∨ it.title = "" then s
      else if d < cfg.fromDate then { s with stopRequested := true }
      else if cfg.fromDate ≤ d ∧ d ≤ cfg.toDate then
        let processed := it.url :: s.processedUrls
        let s1 := { s with
          processedUrls := processed
          batch := s.batch ++ [it]
          accepted := s.accepted ++ [it] }
        if capHit cfg.maxArticles processed.length then
          { s1 with stopRequested := true }
        else if cfg.batchSize ≤ s1.batch.length then
          { s1 with store := s1.store ++ s1.batch, checkpoint := some s1.batch,
                    batch := [] }
        else s1
      else s

/-- One input event: the `if stop_requested: break` check at the top of the
item loop, preceded by the (possible) arrival of the signal. -/
def processEvent (cfg : Config) (s : RunState) (e : Event) : RunState :=
  if s.stopRequested then s
  else if e.sig then { s with stopRequested := true }
  else processItem cfg s e.item

/-- All items examined while scraping one section (the rounds of the inner
`while` loop flattened; expansion only decides which items appear, which is
an input here). -/
def processSection (cfg : Config) (s : RunState) (sec : List Event) : RunState :=
  sec.foldl (processEvent cfg) s

/-- `for section_url in SECTIONS_TO_SCRAPE: if stop_requested: break ...` -/
def runSections (cfg : Config) (s : RunState) (secs : List (List Event)) : RunState :=
  secs.foldl (fun s sec => if s.stopRequested then s else processSection cfg s sec) s

/-- The `finally:` block: `if articles_batch: save_progress(...)`. -/
def flushFinal (s : RunState) : RunState :=
  if s.batch.isEmpty then s
  else { s with store := s.store ++ s.batch, checkpoint := some s.batch, batch := [] }

/-- Initial state of a run: no stop requested, the rehydrated url set, an
empty batch, and the main store as left by previous runs. -/
def initState (processed : List String) (store : List Item) : RunState :=
  ⟨false, processed, [], store, none, []⟩

/-- One full run of `bangla_tribune.py` `main` over the given sections. -/
def runBT (cfg : Config) (processed : List String) (store : List Item)
    (secs : List (List Event)) : RunState :=
  flushFinal (runSections cfg (initState processed store) secs)

/-- A sequence of runs against the same output file, each rehydrating
`processed_urls` from the url column of the current main store
(`load_processed_urls`) and appending to it. -/
def multiRun (cfg : Config) (store : List Item)
    (runs : List (List (List Event))) : List Item :=
  runs.foldl (fun st secs => (runBT cfg (st.map (·.url)) st secs).store) store

/-! ### Checkpointed batch writer (flush) -/

/-- A CSV file at record level: how many header lines it contains and its
data rows.  `pandas.to_csv(mode='a', header=not exists)` writes the header
only when it creates the file, so a correct file always has `headerCount = 1`. -/
structure CsvFile where
  headerCount : Nat
  rows : List Item
deriving DecidableEq, Repr

/-- `save_progress(articles_batch, main_csv_path, checkpoint_path)` of
`prothom_alo_scrapper.py:133-138` (identical in `updated_somokal_scraper.py`,
`bangla_tribune.py`, `bonikbarta_script.py`): no-op on an empty batch,
otherwise append the batch to the main CSV (creating it with a header when
absent) and overwrite the checkpoint file with exactly the batch. -/
def save_progress (batch : List Item) (main chk : Option CsvFile) :
    Option CsvFile × Option CsvFile :=
  if batch.isEmpty then (main, chk)
  else
    (match main with
     | none => some ⟨1, batch⟩
     | some f => some ⟨f.headerCount, f.rows ++ batch⟩,
     some ⟨1, batch⟩)

/-- Keep the first row for each key, in order (`drop_duplicates(keep='first')`);
`seen` accumulates the keys already emitted. -/
def dedupByKey [DecidableEq β] (key : α → β) (seen : List β) : List α → List α
  | [] => []
  | x :: xs =>
    if key x ∈ seen then dedupByKey key seen xs
    else x :: dedupByKey key (key x :: seen) xs

/-- Descending order on an integer sort key (`sort_values(ascending=False)`,
modelled as a deterministic comparison sort key). -/
def byKeyDesc (key : α → Int) (a b : α) : Prop := key b ≤ key a

instance (key : α → Int) : DecidableRel (byKeyDesc key) :=
  fun a b => inferInstanceAs (Decidable (key b ≤ key a))

instance (key : α → Int) : IsTotal α (byKeyDesc key) :=
  ⟨fun a b => le_total (key b) (key a)⟩

instance (key : α → Int) : IsTrans α (byKeyDesc key) :=
  ⟨fun _ _ _ hab hbc => le_trans hbc hab⟩

/-- Sort key of a loop item (`published_date`; accepted items always have
one, `getD` is never exercised on accepted rows). -/
def itemDateKey (it : Item) : Int := it.pub.getD 0

/-- `save_checkpoint(articles, filename)` of `7july_somokal_scirpt.py:109-114`:
unlike `save_progress`, it sorts the batch by date descending, de-duplicates
it by url, and OVERWRITES the single checkpoint file with just that batch;
nothing is appended anywhere. -/
def save_checkpoint (articles : List Item) (file : Option CsvFile) : Option CsvFile :=
  if articles.isEmpty then file
  else some ⟨1, dedupByKey (·.url) []
    (List.insertionSort (byKeyDesc itemDateKey) articles)⟩

/-! ### Final reconciliation pass -/

/-- A row as read back from the main store CSV, after
`pd.to_datetime(..., errors='coerce')`: `url` is `none` when the cell was
empty (NaN), `pub` is `none` when the cell was empty or unparseable (NaT). -/
structure FinRow where
  url : Option String
  title : String
  descr : String
  pub : Option Int
deriving DecidableEq, Repr

/-- `df.dropna(subset=['url', 'published_date'])` keeps exactly these rows. -/
def completeRow (r : FinRow) : Bool := r.url.isSome && r.pub.isSome

/-- Date sort key of a finalize row. -/
def dateKey (r : FinRow) : Int := r.pub.getD 0

/-- The finalize pass of `bangla_tribune.py:309-314` /
`prothom_alo_scrapper.py:273-279` / `updated_somokal_scraper.py:286-294`:
coerce dates, drop rows missing url or a parseable date, sort by
`published_date` descending, drop duplicate urls keeping the first. -/
def finalizeBT (rows : List FinRow) : List FinRow :=
  dedupByKey (·.url) []
    (List.insertionSort (byKeyDesc dateKey) (rows.filter completeRow))

/-- The file-level finalize of `bangla_tribune.py:307-318`: if the output
file does not exist nothing happens (checkpoint included); otherwise the
output file is rewritten with `finalizeBT` of its rows and the checkpoint
file is removed. -/
def finalizeRunBT (main chk : Option (List FinRow)) :
    Option (List FinRow) × Option (List FinRow) :=
  match main with
  | none => (none, chk)
  | some rows => (some (finalizeBT rows), none)

/-- A raw row of the main store before date coercion, as
`bonikbarta_script.py` sees it: `pubRaw` is the serialized date cell
(`none` = empty cell / NaN). -/
structure RawRow where
  url : Option String
  title : String
  descr : String
  pubRaw : Option String
deriving DecidableEq, Repr

/-- Model of `pd.to_datetime(_, errors='coerce')` on one cell, for ISO
`YYYY-MM-DD` strings: unparseable input coerces to NaT (`none`).  The key
`y*10000 + m*100 + d` is an order embedding of the dates. -/
def toDatetimeCoerce (s : String) : Option Int :=
  match s.toList with
  | [y1, y2, y3, y4, '-', m1, m2, '-', d1, d2] =>
    if [y1, y2, y3, y4, m1, m2, d1, d2].all Char.isDigit then
      let num := fun (c : Char) => (c.toNat - '0'.toNat : Int)
      let y := 1000 * num y1 + 100 * num y2 + 10 * num y3 + num y4
      let m := 10 * num m1 + num m2
      let d := 10 * num d1 + num d2
      if 1 ≤ m ∧ m ≤ 12 ∧ 1 ≤ d ∧ d ≤ 31 then some (y * 10000 + m * 100 + d)
      else none
    else none
  | _ => none

/-- Coerced date of a raw row (NaN cell or unparseable string both NaT). -/
def rawKey (r : RawRow) : Option Int := r.pubRaw.bind toDatetimeCoerce

/-- `sort_values(by='published_date', ascending=False)` on a column that may
contain NaT: descending by date, NaT rows last (`na_position='last'`). -/
def bbDescB (a b : RawRow) : Bool :=
  match rawKey a, rawKey b with
  | some x, some y => decide (y ≤ x)
  | some _, none => true
  | none, some _ => false
  | none, none => true

/-- Propositional form of `bbDescB` for `insertionSort`. -/
def bbDesc (a b : RawRow) : Prop := bbDescB a b = true

instance : DecidableRel bbDesc := fun _ _ => inferInstanceAs (Decidable (_ = true))

/-- The finalize pass of `bonikbarta_script.py:199-213`: NOTE the order —
`dropna(subset=['url', 'published_date'])` runs on the RAW columns, and only
afterwards is `published_date` coerced with `errors='coerce'`; a row whose
date cell is present but unparseable therefore survives (as NaT, sorted
last). -/
def finalizeBB (rows : List RawRow) : List RawRow :=
  dedupByKey (·.url) []
    (List.insertionSort bbDesc
      (rows.filter (fun r => r.url.isSome && r.pubRaw.isSome)))

/-! ### Stall detection (no-new-articles counter) -/

/-- How one round of the expansion loop can end. -/
inductive StallOutcome
  | stalled
  | endOfPage
  | running (noNew : Nat)
deriving DecidableEq, Repr

/-- The expansion control of `bangla_tribune.py:259-282`: each round records
the element count before the click (`last_article_count`) and the count
after (`none` when the Load More button was gone, which `break`s).  The
counter increments exactly when `new_count == last_article_count`, resets to
0 otherwise, and the loop `break`s as stalled when it reaches
`MAX_NO_NEW_ARTICLES`. -/
def stallSteps (limit : Nat) (noNew : Nat) :
    List (Nat × Option Nat) → StallOutcome
  | [] => .running noNew
  | (pre, post) :: rest =>
    match post with
    | none => .endOfPage
    | some n =>
      let noNew1 := if n = pre then noNew + 1 else 0
      if limit ≤ noNew1 then .stalled else stallSteps limit noNew1 rest

/-! ### Ledger rehydration -/

/-- `pd.read_csv(path, usecols=['url'])` followed by `df['url'].dropna()`,
on the raw record grid (first record = header row): an empty file raises
`EmptyDataError`, a missing `url` column raises `ValueError`; otherwise the
url column is extracted, with missing/empty cells dropped as NaN. -/
def readUrlColumn (lines : List (List String)) : Except Unit (List String) :=
  match lines with
  | [] => .error ()
  | header :: rows =>
    match header.findIdx? (fun h => h = "url") with
    | none => .error ()
    | some i => .ok (rows.filterMap (fun r =>
        match r.get? i with
        | some s => if s = "" then none else some s
        | none => none))

/-- `load_processed_urls(main_csv_path)` of `bangla_tribune.py:139-149`:
a missing file yields the empty set, any read error (empty or malformed
file) is caught and yields the empty set with a warning, and otherwise the
set of stored url values is returned. -/
def load_processed_urls (file : Option (List (List String))) : List String :=
  match file with
  | none => []
  | some lines =>
    match readUrlColumn lines with
    | .error _ => []
    | .ok us => us.dedup

/-! ### Samakal date parsing (`scraper.py:56-89`) -/

/-- Python `str.replace(pat, sub)` on a character list: scan left to right,
replace each non-overlapping occurrence, never rescanning the substitution.
`fuel` bounds the recursion; each step consumes at least one input
character, so `fuel = length of the input` is enough. -/
def replaceSeq (pat sub : List Char) : Nat → List Char → List Char
  | _, [] => []
  | 0, s => s
  | fuel + 1, c :: cs =>
    if pat ≠ [] ∧ pat.isPrefixOf (c :: cs) then
      sub ++ replaceSeq pat sub fuel (List.drop (pat.length - 1) cs)
    else c :: replaceSeq pat sub fuel cs

/-- `s.replace(pat, sub)`. -/
def replaceAll (pat sub : String) (s : List Char) : List Char :=
  replaceSeq pat.toList sub.toList s.length s

/-- `str.strip()`. -/
def stripChars (s : List Char) : List Char :=
  ((s.dropWhile Char.isWhitespace).reverse.dropWhile Char.isWhitespace).reverse

/-- `BENGALI_TO_ENG_MAP` of `scraper.py:49-54`, in dict insertion order. -/
def BENGALI_TO_ENG_MAP : List (String × String) :=
  [("জানুয়ারি", "January"), ("ফেব্রুয়ারি", "February"), ("মার্চ", "March"),
   ("এপ্রিল", "April"), ("মে", "May"), ("জুন", "June"), ("জুলাই", "July"),
   ("আগস্ট", "August"), ("সেপ্টেম্বর", "September"), ("অক্টোবর", "October"),
   ("নভেম্বর", "November"), ("ডিসেম্বর", "December"),
   ("০", "0"), ("১", "1"), ("২", "2"), ("৩", "3"), ("৪", "4"),
   ("৫", "5"), ("৬", "6"), ("৭", "7"), ("৮", "8"), ("৯", "9")]

/-- The cleaning phase of `parse_samakal_date`: drop the two Bengali
prefixes, strip, keep only the part before the first `|` (stripped), then
substitute English month names and ASCII digits. -/
def cleanSamakal (s : String) : List Char :=
  let c1 := replaceAll "প্রকাশিত:" "" s.toList
  let c2 := stripChars (replaceAll "আপডেটঃ" "" c1)
  let c3 := if c2.contains '|' then stripChars (c2.takeWhile (fun c => c ≠ '|')) else c2
  BENGALI_TO_ENG_MAP.foldl (fun acc p => replaceAll p.1 p.2 acc) c3

/-- `\w` of the regex, over the alphabet reaching the month group after
cleaning (English month names, digits, underscore). -/
def isWordChar (c : Char) : Bool := c.isAlphanum || c = '_'

/-- `\s*(\d{4})` at the given position: skip whitespace greedily and demand
four digits (the regex is unanchored at the right, trailing characters are
ignored). -/
def yearAt (cs : List Char) : Option (List Char) :=
  let cs1 := cs.dropWhile Char.isWhitespace
  let y := cs1.take 4
  if y.length = 4 ∧ y.all Char.isDigit then some y else none

/-- The `(\w+)\s*(\d{4})` tail of the regex on a maximal word-character run
`w` followed by `rest`: greedy `\w+` with backtracking tries the longest
word prefix first. -/
def matchWordYear (w rest : List Char) : Option (List Char × List Char) :=
  (List.range w.length).findSome? (fun i =>
    let k := w.length - i
    match yearAt (w.drop k ++ rest) with
    | some y => some (w.take k, y)
    | none => none)

/-- `(\d{n})\s*(\w+)\s*(\d{4})` anchored at the start, for `n = 1, 2`. -/
def dayAt (n : Nat) (cs : List Char) : Option (List Char × List Char × List Char) :=
  let d := cs.take n
  if d.length = n ∧ d.all Char.isDigit then
    let rest := (cs.drop n).dropWhile Char.isWhitespace
    let w := rest.takeWhile isWordChar
    match matchWordYear w (rest.drop w.length) with
    | some (m, y) => some (d, m, y)
    | none => none
  else none

/-- `re.match(r'(\d{1,2})\s*(\w+)\s*(\d{4})', s)`: the greedy `\d{1,2}`
tries two digits first, falling back to one. -/
def matchDMY (cs : List Char) : Option (List Char × List Char × List Char) :=
  match dayAt 2 cs with
  | some r => some r
  | none => dayAt 1 cs

/-- Decimal value of a digit string (`int(day)` drops leading zeros). -/
def digitsToNat (l : List Char) : Nat :=
  l.foldl (fun a c => 10 * a + (c.toNat - '0'.toNat)) 0

/-- `%B` month-name lookup; `strptime` matches month names
case-insensitively. -/
def monthNum (m : List Char) : Option Nat :=
  let lm := m.map Char.toLower
  if lm = "january".toList then some 1
  else if lm = "february".toList then some 2
  else if lm = "march".toList then some 3
  else if lm = "april".toList then some 4
  else if lm = "may".toList then some 5
  else if lm = "june".toList then some 6
  else if lm = "july".toList then some 7
  else if lm = "august".toList then some 8
  else if lm = "september".toList then some 9
  else if lm = "october".toList then some 10
  else if lm = "november".toList then some 11
  else if lm = "december".toList then some 12
  else none

/-- Gregorian month lengths, as validated by `datetime`. -/
def daysInMonth (y m : Nat) : Nat :=
  if m = 2 then (if (y % 4 = 0 ∧ y % 100 ≠ 0) ∨ y % 400 = 0 then 29 else 28)
  else if m = 4 ∨ m = 6 ∨ m = 9 ∨ m = 11 then 30
  else 31

/-- `datetime.strptime(f"{int(day)} {month} {year}", '%d %B %Y')`: an
unknown month name or an out-of-range day or year raises `ValueError`
(caught by the caller, hence `none`); otherwise the date. -/
def strptimeDMY (dayS monthS yearS : List Char) : Option (Nat × Nat × Nat) :=
  match monthNum monthS with
  | none => none
  | some m =>
    let d := digitsToNat dayS
    let y := digitsToNat yearS
    if 1 ≤ y ∧ 1 ≤ d ∧ d ≤ daysInMonth y m then some (y, m, d) else none

/-- `parse_samakal_date(date_str)` of `scraper.py:56-89`.  A `None` or empty
(falsy) argument returns `None` at once; otherwise the string is cleaned,
matched against the day-month-year pattern (no match returns `None` with a
warning), and handed to `strptime`, whose `ValueError`/`TypeError` is
caught and turned into `None`. -/
def parse_samakal_date (dateStr : Option String) : Option (Nat × Nat × Nat) :=
  match dateStr with
  | none => none
  | some s =>
    if s = "" then none
    else
      match matchDMY (cleanSamakal s) with
      | none => none
      | some (d, m, y) => strptimeDMY d m y

/-! ### Specification predicates and concrete fixtures -/

/-- Relation between a state and a later state: the accepted list grew by
some `d` and the combined store-plus-batch contents grew by the same `d`. -/
def GrewBy (s s1 : RunState) : Prop :=
  ∃ d, s1.accepted = s.accepted ++ d ∧
    s1.store ++ s1.batch = s.store ++ s.batch ++ d

/-- The conditions under which an item is accepted (completeness plus the
inclusive date window). -/
def acceptedOK (cfg : Config) (it : Item) : Prop :=
  it.url ≠ "" ∧ it.title ≠ "" ∧
    ∃ d, it.pub = some d ∧ cfg.fromDate ≤ d ∧ d ≤ cfg.toDate

/-- Everything in the accepted list passed the completeness and window
checks. -/
def WindowInv (cfg : Config) (s : RunState) : Prop :=
  ∀ x ∈ s.accepted, acceptedOK cfg x

/-- The urls persisted or pending persistence are duplicate-free and all
recorded in `processed_urls`. -/
def LedgerInv (s : RunState) : Prop :=
  ((s.store ++ s.batch).map Item.url).Nodup ∧
  ∀ u ∈ (s.store ++ s.batch).map Item.url, u ∈ s.processedUrls

/-- Invariant tying the ledger size to the session's acceptances under a
configured cap `m` and an initial ledger of size `p0`: the ledger grows by
exactly one per acceptance, the run keeps going only while the ledger is
below the cap (or nothing has been accepted yet), and the number of
acceptances never exceeds `max (m - p0) 1`. -/
def CapInv (m p0 : Nat) (s : RunState) : Prop :=
  s.processedUrls.length = p0 + s.accepted.length ∧
  (s.stopRequested = false → (s.accepted.length = 0 ∨ p0 + s.accepted.length < m)) ∧
  s.accepted.length ≤ max (m - p0) 1

/-- Decidable well-formedness of one csv record at column `i`: the cell
exists and is non-empty. -/
def cellOK (i : Nat) (r : List String) : Bool :=
  match r.get? i with
  | some s => decide (s ≠ "")
  | none => false

/-! ### Concrete fixtures for counterexamples and witnesses -/

def cexCfg : Config := ⟨0, 10, none, 100⟩

def cexOld : Item := ⟨"u1", "t1", "", some (-5)⟩

def cexGood : Item := ⟨"u2", "t2", "", some 5⟩

def capCfg : Config := ⟨0, 10, some 1, 100⟩

def capItem : Item := ⟨"u1", "t1", "", some 5⟩

def lostRow : Item := ⟨"u1", "t1", "", some 1⟩

def keptRow : Item := ⟨"u2", "t2", "", some 2⟩

def bbBadRow : RawRow := ⟨some "u", "t", "", some "notadate"⟩

def c4row : FinRow := ⟨some "a", "t", "", some 3⟩

def cexRounds : List (Nat × Option Nat) :=
  [(5, some 4), (4, some 3), (3, some 2), (2, some 1), (1, some 0)]

def wfHeader : List String := ["url", "title"]

def wfRows : List (List String) := [["u1", "t1"], ["u2", "t2"]]

/-! ### Lemmas: the stop flag is absorbing -/

/-- Once `stop_requested` is set, an event is skipped (`break`). -/
theorem processEvent_stop (cfg : Config) (s : RunState) (e : Event)
    (h : s.stopRequested = true) : processEvent cfg s e = s := by
  simp [processEvent, h]

/-- Once `stop_requested` is set, the rest of a section is skipped. -/
theorem processSection_stop (cfg : Config) (s : RunState) (sec : List Event)
    (h : s.stopRequested = true) : processSection cfg s sec = s := by
  induction sec with
  | nil => rfl
  | cons e es ih =>
    unfold processSection at ih ⊢
    rw [List.foldl_cons, processEvent_stop cfg s e h, ih]

/-- Once `stop_requested` is set, all remaining sections are skipped. -/
theorem runSections_stop (cfg : Config) (s : RunState) (secs : List (List Event))
    (h : s.stopRequested = true) : runSections cfg s secs = s := by
  induction secs with
  | nil => rfl
  | cons sec ss ih =>
    unfold runSections at ih ⊢
    rw [List.foldl_cons, if_pos h, ih]

/-! ### Lemmas: everything accepted reaches the store -/

theorem grewBy_refl (s : RunState) : GrewBy s s := ⟨[], by simp⟩

theorem grewBy_trans {a b c : RunState} (h1 : GrewBy a b) (h2 : GrewBy b c) :
    GrewBy a c := by
  obtain ⟨d1, hd1, hs1⟩ := h1
  obtain ⟨d2, hd2, hs2⟩ := h2
  exact ⟨d1 ++ d2, by simp [hd2, hd1], by simp [hs2, hs1]⟩

theorem grewBy_foldl {α : Type} {f : RunState → α → RunState}
    (hf : ∀ s x, GrewBy s (f s x)) :
    ∀ (l : List α) (s : RunState), GrewBy s (l.foldl f s) := by
  intro l
  induction l with
  | nil => intro s; exact grewBy_refl s
  | cons x xs ih => intro s; exact grewBy_trans (hf s x) (ih (f s x))

theorem processItem_grewBy (cfg : Config) (s : RunState) (it : Item) :
    GrewBy s (processItem cfg s it) := by
  unfold processItem
  repeat' split
  all_goals first
    | (refine ⟨[], ?_, ?_⟩ <;> simp <;> done)
    | (refine ⟨[it], ?_, ?_⟩ <;> dsimp only <;> split_ifs <;> simp)

theorem processEvent_grewBy (cfg : Config) (s : RunState) (e : Event) :
    GrewBy s (processEvent cfg s e) := by
  unfold processEvent
  repeat' split
  · exact grewBy_refl s
  · exact ⟨[], by simp⟩
  · exact processItem_grewBy cfg s e.item

theorem runSections_grewBy (cfg : Config) (s : RunState)
    (secs : List (List Event)) : GrewBy s (runSections cfg s secs) := by
  refine grewBy_foldl (fun s1 sec => ?_) secs s
  split
  · exact grewBy_refl s1
  · exact grewBy_foldl (processEvent_grewBy cfg) sec s1

/-- The final flush empties the batch. -/
theorem flushFinal_batch (s : RunState) : (flushFinal s).batch = [] := by
  unfold flushFinal
  split
  · next h => simpa using h
  · rfl

theorem flushFinal_grewBy (s : RunState) : GrewBy s (flushFinal s) := by
  unfold flushFinal
  split
  · exact grewBy_refl s
  · exact ⟨[], by simp⟩

/-- A state that started with an empty batch and accepted list and grew into
a final state with an empty batch has persisted exactly its accepted list. -/
theorem grewBy_store_eq {s s1 : RunState} (h : GrewBy s s1) (hb0 : s.batch = [])
    (ha0 : s.accepted = []) (hb1 : s1.batch = []) :
    s1.store = s.store ++ s1.accepted := by
  obtain ⟨d, hd, hs⟩ := h
  rw [hb1, List.append_nil, hb0, List.append_nil] at hs
  rw [ha0, List.nil_append] at hd
  rw [hs, hd]

/-- Every item this run accepted is in the main store when the run exits,
appended after the pre-existing rows, whatever the inputs and whenever (if
ever) cancellation arrived. -/
theorem runBT_store_eq (cfg : Config) (processed : List String)
    (store : List Item) (secs : List (List Event)) :
    (runBT cfg processed store secs).store =
      store ++ (runBT cfg processed store secs).accepted :=
  grewBy_store_eq
    (grewBy_trans (runSections_grewBy cfg (initState processed store) secs)
      (flushFinal_grewBy (runSections cfg (initState processed store) secs)))
    rfl rfl (flushFinal_batch _)

/-! ### A case characterization of `processItem` -/

/-- Exhaustive description of what one `processItem` step can do: leave the
state unchanged (skip), set the stop flag on an old item, or accept the item
(with or without the cap firing, with or without a batch flush). -/
theorem processItem_spec (cfg : Config) (s : RunState) (it : Item) :
    processItem cfg s it = s ∨
    ((∃ d, it.pub = some d ∧ d < cfg.fromDate) ∧ it.url ∉ s.processedUrls ∧
      it.url ≠ "" ∧ it.title ≠ "" ∧
      processItem cfg s it = { s with stopRequested := true }) ∨
    (acceptedOK cfg it ∧ it.url ∉ s.processedUrls ∧
      ((capHit cfg.maxArticles (s.processedUrls.length + 1) = true ∧
        processItem cfg s it = { s with
          stopRequested := true
          processedUrls := it.url :: s.processedUrls
          batch := s.batch ++ [it]
          accepted := s.accepted ++ [it] }) ∨
       (capHit cfg.maxArticles (s.processedUrls.length + 1) = false ∧
        (processItem cfg s it = { s with
            processedUrls := it.url :: s.processedUrls
            batch := []
            store := s.store ++ (s.batch ++ [it])
            checkpoint := some (s.batch ++ [it])
            accepted := s.accepted ++ [it] } ∨
         processItem cfg s it = { s with
            processedUrls := it.url :: s.processedUrls
            batch := s.batch ++ [it]
            accepted := s.accepted ++ [it] })))) := by
  unfold processItem
  split
  · exact Or.inl rfl
  next hmem =>
    split
    · exact Or.inl rfl
    next d heq =>
      split
      · exact Or.inl rfl
      next hne =>
        push_neg at hne
        split
        next hlt =>
          exact Or.inr (Or.inl ⟨⟨d, heq, hlt⟩, hmem, hne.1, hne.2, rfl⟩)
        next hge =>
          split
          next hwin =>
            dsimp only
            split
            next hcap =>
              exact Or.inr (Or.inr ⟨⟨hne.1, hne.2, d, heq, hwin.1, hwin.2⟩, hmem,
                Or.inl ⟨hcap, rfl⟩⟩)
            next hcap =>
              split
              next hbatch =>
                exact Or.inr (Or.inr ⟨⟨hne.1, hne.2, d, heq, hwin.1, hwin.2⟩, hmem,
                  Or.inr ⟨by simpa using hcap, Or.inl rfl⟩⟩)
              next hbatch =>
                exact Or.inr (Or.inr ⟨⟨hne.1, hne.2, d, heq, hwin.1, hwin.2⟩, hmem,
                  Or.inr ⟨by simpa using hcap, Or.inr rfl⟩⟩)
          next => exact Or.inl rfl

/-- Generic preservation of a state predicate by a fold. -/
theorem foldl_preserve {α : Type} {P : RunState → Prop} {f : RunState → α → RunState}
    (hf : ∀ s x, P s → P (f s x)) :
    ∀ (l : List α) (s : RunState), P s → P (l.foldl f s) := by
  intro l
  induction l with
  | nil => exact fun s h => h
  | cons x xs ih => exact fun s h => ih (f s x) (hf s x h)

/-- The final flush does not change the accepted list. -/
theorem flushFinal_accepted (s : RunState) : (flushFinal s).accepted = s.accepted := by
  unfold flushFinal
  split <;> rfl

/-- The final flush does not change the url ledger. -/
theorem flushFinal_processed (s : RunState) :
    (flushFinal s).processedUrls = s.processedUrls := by
  unfold flushFinal
  split <;> rfl

/-- The final flush does not change the stop flag. -/
theorem flushFinal_stop (s : RunState) :
    (flushFinal s).stopRequested = s.stopRequested := by
  unfold flushFinal
  split <;> rfl

/-! ### Lemmas: window correctness of accepted items -/

theorem processEvent_window (cfg : Config) (s : RunState) (e : Event)
    (h : WindowInv cfg s) : WindowInv cfg (processEvent cfg s e) := by
  unfold processEvent
  split
  · exact h
  split
  · exact h
  rcases processItem_spec cfg s e.item with h1 | ⟨_, _, _, _, h1⟩ |
    ⟨hok, _, ⟨_, h1⟩ | ⟨_, h1 | h1⟩⟩ <;> rw [h1] <;>
    first
      | exact h
      | (intro x hx
         rcases List.mem_append.mp hx with hx | hx
         · exact h x hx
         · rw [List.mem_singleton.mp hx]; exact hok)

theorem runSections_window (cfg : Config) (s : RunState)
    (secs : List (List Event)) (h : WindowInv cfg s) :
    WindowInv cfg (runSections cfg s secs) := by
  refine foldl_preserve (fun s1 sec h1 => ?_) secs s h
  dsimp only
  split
  · exact h1
  · exact foldl_preserve (processEvent_window cfg) sec s1 h1

/-- Every item a run accepts is complete and inside the date window. -/
theorem runBT_window (cfg : Config) (processed : List String)
    (store : List Item) (secs : List (List Event)) :
    ∀ x ∈ (runBT cfg processed store secs).accepted, acceptedOK cfg x := by
  intro x hx
  rw [runBT, flushFinal_accepted] at hx
  exact runSections_window cfg (initState processed store) secs
    (fun x hx => absurd hx (List.not_mem_nil x)) x hx

/-! ### Lemmas: the ledger makes acceptance at-most-once -/

theorem ledgerInv_accept {s s1 : RunState} {it : Item} (hI : LedgerInv s)
    (hmem : it.url ∉ s.processedUrls)
    (hs : s1.store ++ s1.batch = (s.store ++ s.batch) ++ [it])
    (hp : s1.processedUrls = it.url :: s.processedUrls) : LedgerInv s1 := by
  have hnotin : it.url ∉ (s.store ++ s.batch).map Item.url :=
    fun hmem2 => hmem (hI.2 _ hmem2)
  constructor
  · rw [hs, List.map_append]
    simp only [List.map_cons, List.map_nil]
    rw [List.nodup_append]
    exact ⟨hI.1, List.nodup_singleton _, by simpa using hnotin⟩
  · intro u hu
    rw [hs, List.map_append] at hu
    rcases List.mem_append.mp hu with hu | hu
    · rw [hp]; exact List.mem_cons_of_mem _ (hI.2 u hu)
    · simp only [List.map_cons, List.map_nil, List.mem_singleton] at hu
      rw [hp, hu]; exact List.mem_cons_self _ _

theorem processEvent_ledger (cfg : Config) (s : RunState) (e : Event)
    (h : LedgerInv s) : LedgerInv (processEvent cfg s e) := by
  unfold processEvent
  split
  · exact h
  split
  · exact h
  rcases processItem_spec cfg s e.item with h1 | ⟨_, _, _, _, h1⟩ |
    ⟨_, hmem, ⟨_, h1⟩ | ⟨_, h1 | h1⟩⟩ <;> rw [h1]
  · exact h
  · exact h
  · exact ledgerInv_accept h hmem (by simp) rfl
  · exact ledgerInv_accept h hmem (by simp) rfl
  · exact ledgerInv_accept h hmem (by simp) rfl

theorem runSections_ledger (cfg : Config) (s : RunState)
    (secs : List (List Event)) (h : LedgerInv s) :
    LedgerInv (runSections cfg s secs) := by
  refine foldl_preserve (fun s1 sec h1 => ?_) secs s h
  dsimp only
  split
  · exact h1
  · exact foldl_preserve (processEvent_ledger cfg) sec s1 h1

theorem flushFinal_ledger {s : RunState} (h : LedgerInv s) :
    LedgerInv (flushFinal s) := by
  unfold flushFinal
  split
  · exact h
  · exact ⟨by simpa using h.1, by simpa using h.2⟩

/-- A run seeded with a duplicate-free store, whose ledger is rehydrated
from that store's url column, leaves a duplicate-free store. -/
theorem runBT_nodup (cfg : Config) (store : List Item)
    (secs : List (List Event)) (h : (store.map Item.url).Nodup) :
    ((runBT cfg (store.map Item.url) store secs).store.map Item.url).Nodup := by
  have hinit : LedgerInv (initState (store.map Item.url) store) := by
    constructor
    · simpa [initState] using h
    · intro u hu
      simp only [initState] at hu ⊢
      simpa using hu
  have hfin := flushFinal_ledger
    (runSections_ledger cfg (initState (store.map Item.url) store) secs hinit)
  have hb := flushFinal_batch (runSections cfg (initState (store.map Item.url) store) secs)
  rw [runBT]
  have := hfin.1
  rw [hb, List.append_nil] at this
  exact this

/-- Across any sequence of rehydrating runs starting from an empty output,
the accumulated main store never contains the same url twice. -/
theorem multiRun_nodup (cfg : Config) (runs : List (List (List Event))) :
    ((multiRun cfg [] runs).map Item.url).Nodup := by
  suffices h : ∀ (store : List Item), (store.map Item.url).Nodup →
      ((multiRun cfg store runs).map Item.url).Nodup by
    exact h [] (by simp)
  induction runs with
  | nil => intro store h; exact h
  | cons secs rest ih =>
    intro store h
    exact ih _ (runBT_nodup cfg store secs h)

/-! ### Lemmas: the max-articles cap -/

theorem capHit_some (m n : Nat) (hm : 1 ≤ m) :
    capHit (some m) n = decide (m ≤ n) := by
  have h : capHit (some m) n = if m = 0 then false else decide (m ≤ n) := rfl
  rw [h, if_neg (by omega)]

theorem processEvent_capInv (cfg : Config) {m p0 : Nat}
    (hm : cfg.maxArticles = some m) (hm1 : 1 ≤ m) (s : RunState) (e : Event)
    (h : CapInv m p0 s) : CapInv m p0 (processEvent cfg s e) := by
  unfold processEvent
  split
  · exact h
  next hstop =>
    split
    · exact ⟨h.1, by simp, h.2.2⟩
    have hstop1 : s.stopRequested = false := by simpa using hstop
    have hor := h.2.1 hstop1
    have h1l := h.1
    rcases processItem_spec cfg s e.item with h1 | ⟨_, _, _, _, h1⟩ |
      ⟨_, _, ⟨hcap, h1⟩ | ⟨hcap, h1 | h1⟩⟩ <;> rw [h1]
    · exact h
    · exact ⟨h.1, by simp, h.2.2⟩
    · refine ⟨?_, by simp, ?_⟩ <;>
        simp only [List.length_cons, List.length_append, List.length_nil] <;>
        rcases hor with hor | hor <;> omega
    all_goals
      rw [hm, capHit_some m _ hm1] at hcap
      have hlt : ¬ (m ≤ s.processedUrls.length + 1) := of_decide_eq_false hcap
      refine ⟨?_, ?_, ?_⟩ <;>
        simp only [List.length_cons, List.length_append, List.length_nil] <;>
        omega

theorem runSections_capInv (cfg : Config) {m p0 : Nat}
    (hm : cfg.maxArticles = some m) (hm1 : 1 ≤ m) (s : RunState)
    (secs : List (List Event)) (h : CapInv m p0 s) :
    CapInv m p0 (runSections cfg s secs) := by
  refine foldl_preserve (fun s1 sec h1 => ?_) secs s h
  dsimp only
  split
  · exact h1
  · exact foldl_preserve (processEvent_capInv cfg hm hm1) sec s1 h1

theorem flushFinal_capInv {m p0 : Nat} {s : RunState} (h : CapInv m p0 s) :
    CapInv m p0 (flushFinal s) := by
  unfold CapInv at h ⊢
  rw [flushFinal_accepted, flushFinal_processed, flushFinal_stop]
  exact h

/-- With a nonzero cap `m` configured and an initial ledger of `p` urls, a
run accepts at most `max (m - p) 1` items: the check fires at the first
acceptance that brings the ledger to the cap (and, when the rehydrated
ledger already meets the cap, after exactly one more acceptance). -/
theorem runBT_cap_bound (cfg : Config) (m : Nat) (hm : cfg.maxArticles = some m)
    (hm1 : 1 ≤ m) (p : List String) (st : List Item) (secs : List (List Event)) :
    (runBT cfg p st secs).accepted.length ≤ max (m - p.length) 1 := by
  have hinit : CapInv m p.length (initState p st) := by
    refine ⟨by simp [initState], ?_, by simp [initState]⟩
    intro _
    left
    simp [initState]
  exact (flushFinal_capInv
    (runSections_capInv cfg hm hm1 (initState p st) secs hinit)).2.2

/-! ### Lemmas: `drop_duplicates(keep='first')` -/

section Dedup

variable {α β : Type} [DecidableEq β] (key : α → β)

theorem dedupByKey_sublist : ∀ (seen : List β) (l : List α),
    List.Sublist (dedupByKey key seen l) l := by
  intro seen l
  induction l generalizing seen with
  | nil => exact List.Sublist.refl []
  | cons z l' ih =>
    unfold dedupByKey
    split
    · exact (ih seen).cons z
    · exact (ih (key z :: seen)).cons₂ z

/-- The emitted keys avoid `seen` and are duplicate-free. -/
theorem dedupByKey_nodup : ∀ (seen : List β) (l : List α),
    (∀ b ∈ (dedupByKey key seen l).map key, b ∉ seen) ∧
      ((dedupByKey key seen l).map key).Nodup := by
  intro seen l
  induction l generalizing seen with
  | nil => exact ⟨by simp [dedupByKey], by simp [dedupByKey]⟩
  | cons z l' ih =>
    unfold dedupByKey
    split
    · exact ih seen
    next hz =>
      obtain ⟨havoid, hnodup⟩ := ih (key z :: seen)
      constructor
      · intro b hb hbseen
        simp only [List.map_cons, List.mem_cons] at hb
        rcases hb with hb | hb
        · exact hz (hb ▸ hbseen)
        · exact havoid b hb (List.mem_cons_of_mem _ hbseen)
      · simp only [List.map_cons, List.nodup_cons]
        exact ⟨fun hmem => havoid _ hmem (List.mem_cons_self _ _), hnodup⟩

/-- Each emitted row is the first row of the input carrying its key
(`keep='first'`). -/
theorem dedupByKey_find : ∀ (seen : List β) (l : List α) (x : α),
    x ∈ dedupByKey key seen l →
      l.find? (fun y => decide (key y = key x)) = some x := by
  intro seen l
  induction l generalizing seen with
  | nil => intro x hx; simp [dedupByKey] at hx
  | cons z l' ih =>
    intro x hx
    unfold dedupByKey at hx
    by_cases hz : key z ∈ seen
    · rw [if_pos hz] at hx
      have havoid := (dedupByKey_nodup key seen l').1
      have hpz : ¬((fun y => decide (key y = key x)) z = true) := by
        simp only [decide_eq_true_eq]
        intro hbeq
        exact havoid (key x) (List.mem_map_of_mem key hx) (hbeq ▸ hz)
      exact (List.find?_cons_of_neg l' hpz).trans (ih seen x hx)
    · rw [if_neg hz] at hx
      rcases List.mem_cons.mp hx with rfl | hx
      · exact List.find?_cons_of_pos l' (by simp)
      · have havoid2 := (dedupByKey_nodup key (key z :: seen) l').1
        have hpz : ¬((fun y => decide (key y = key x)) z = true) := by
          simp only [decide_eq_true_eq]
          intro hbeq
          exact havoid2 (key x) (List.mem_map_of_mem key hx)
            (hbeq ▸ List.mem_cons_self _ _)
        exact (List.find?_cons_of_neg l' hpz).trans (ih (key z :: seen) x hx)

/-- Every input row whose key is not suppressed has a representative in the
output. -/
theorem dedupByKey_covers : ∀ (seen : List β) (l : List α) (x : α),
    x ∈ l → key x ∉ seen → ∃ y ∈ dedupByKey key seen l, key y = key x := by
  intro seen l
  induction l generalizing seen with
  | nil => intro x hx; simp at hx
  | cons z l' ih =>
    intro x hx hseen
    unfold dedupByKey
    rcases List.mem_cons.mp hx with rfl | hx
    · rw [if_neg hseen]
      exact ⟨x, List.mem_cons_self _ _, rfl⟩
    · by_cases hz : key z ∈ seen
      · rw [if_pos hz]
        exact ih seen x hx hseen
      · rw [if_neg hz]
        by_cases hzx : key x = key z
        · exact ⟨z, List.mem_cons_self _ _, hzx.symm⟩
        · obtain ⟨y, hy, hky⟩ := ih (key z :: seen) x hx
            (by simp [hseen, hzx])
          exact ⟨y, List.mem_cons_of_mem _ hy, hky⟩

theorem dedupByKey_cons (seen : List β) (z : α) (l' : List α) :
    dedupByKey key seen (z :: l') =
      if key z ∈ seen then dedupByKey key seen l'
      else z :: dedupByKey key (key z :: seen) l' := rfl

/-- De-duplication is idempotent. -/
theorem dedupByKey_idem : ∀ (seen : List β) (l : List α),
    dedupByKey key seen (dedupByKey key seen l) = dedupByKey key seen l := by
  intro seen l
  induction l generalizing seen with
  | nil => rfl
  | cons z l' ih =>
    rw [dedupByKey_cons]
    by_cases hz : key z ∈ seen
    · rw [if_pos hz]
      exact ih seen
    · rw [if_neg hz, dedupByKey_cons, if_neg hz, ih (key z :: seen)]

end Dedup

/-! ### Lemmas: the finalize pass -/

theorem finalizeBT_complete (rows : List FinRow) :
    ∀ r ∈ finalizeBT rows, completeRow r = true ∧ r ∈ rows := by
  intro r hr
  have hmem : r ∈ List.insertionSort (byKeyDesc dateKey) (rows.filter completeRow) :=
    (dedupByKey_sublist (fun r : FinRow => r.url) []
      (List.insertionSort (byKeyDesc dateKey) (rows.filter completeRow))).subset hr
  rw [List.mem_insertionSort] at hmem
  exact ⟨(List.mem_filter.mp hmem).2, (List.mem_filter.mp hmem).1⟩

theorem finalizeBT_sorted (rows : List FinRow) :
    (finalizeBT rows).Sorted (byKeyDesc dateKey) :=
  List.Pairwise.sublist
    (dedupByKey_sublist (fun r : FinRow => r.url) [] _)
    (List.sorted_insertionSort (byKeyDesc dateKey) (rows.filter completeRow))

theorem finalizeBT_nodup (rows : List FinRow) :
    ((finalizeBT rows).map FinRow.url).Nodup :=
  (dedupByKey_nodup (fun r : FinRow => r.url) []
    (List.insertionSort (byKeyDesc dateKey) (rows.filter completeRow))).2

theorem finalizeBT_find (rows : List FinRow) :
    ∀ r ∈ finalizeBT rows,
      (List.insertionSort (byKeyDesc dateKey) (rows.filter completeRow)).find?
        (fun y => decide (y.url = r.url)) = some r :=
  fun r hr => dedupByKey_find (fun r : FinRow => r.url) [] _ r hr

theorem finalizeBT_covers (rows : List FinRow) :
    ∀ r ∈ rows, completeRow r = true → ∃ y ∈ finalizeBT rows, y.url = r.url := by
  intro r hr hc
  exact dedupByKey_covers (fun r : FinRow => r.url) [] _ r
    (by rw [List.mem_insertionSort]; exact List.mem_filter.mpr ⟨hr, hc⟩)
    (by simp)

theorem finalizeBT_idem (rows : List FinRow) :
    finalizeBT (finalizeBT rows) = finalizeBT rows := by
  have h1 : (finalizeBT rows).filter completeRow = finalizeBT rows :=
    List.filter_eq_self.mpr (fun r hr => (finalizeBT_complete rows r hr).1)
  show dedupByKey (fun r : FinRow => r.url) []
    (List.insertionSort (byKeyDesc dateKey) ((finalizeBT rows).filter completeRow)) = _
  rw [h1, List.Sorted.insertionSort_eq (finalizeBT_sorted rows)]
  exact dedupByKey_idem (fun r : FinRow => r.url) [] _

/-! ### Lemmas: stall detection -/

theorem stallSteps_some (limit noNew pre n : Nat) (rest : List (Nat × Option Nat)) :
    stallSteps limit noNew ((pre, some n) :: rest) =
      (if limit ≤ (if n = pre then noNew + 1 else 0) then .stalled
       else stallSteps limit (if n = pre then noNew + 1 else 0) rest) := rfl

/-- `limit` consecutive rounds in which the element count is unchanged
drive the counter to the threshold and end the section as stalled. -/
theorem stallSteps_stalls (limit : Nat) :
    ∀ (counts : List Nat) (noNew : Nat) (rest : List (Nat × Option Nat)),
      counts ≠ [] → limit ≤ noNew + counts.length →
      stallSteps limit noNew (counts.map (fun c => (c, some c)) ++ rest) =
        .stalled := by
  intro counts
  induction counts with
  | nil => intro noNew rest hne _; exact absurd rfl hne
  | cons c cs ih =>
    intro noNew rest _ hlen
    rw [List.map_cons, List.cons_append, stallSteps_some, if_pos rfl]
    by_cases hstop : limit ≤ noNew + 1
    · rw [if_pos hstop]
    · rw [if_neg hstop]
      cases cs with
      | nil =>
        simp only [List.length_cons, List.length_nil] at hlen
        omega
      | cons c2 cs2 =>
        refine ih (noNew + 1) rest (by simp) ?_
        simp only [List.length_cons] at hlen ⊢
        omega

/-- A round in which the count changed resets the no-progress counter. -/
theorem stallSteps_reset (limit noNew pre n : Nat) (rest : List (Nat × Option Nat))
    (hne : n ≠ pre) (hl : 1 ≤ limit) :
    stallSteps limit noNew ((pre, some n) :: rest) = stallSteps limit 0 rest := by
  rw [stallSteps_some, if_neg hne, if_neg (by omega)]

/-! ### Lemmas: ledger rehydration and finalize files -/

theorem dedup_toFinset (l : List String) : l.dedup.toFinset = l.toFinset := by
  ext a
  simp [List.mem_dedup]

/-- The final flush always leaves the store holding the old store plus the
pending batch. -/
theorem flushFinal_store (s : RunState) :
    (flushFinal s).store = s.store ++ s.batch := by
  unfold flushFinal
  split
  · next h =>
    have hb : s.batch = [] := by simpa using h
    rw [hb, List.append_nil]
  · rfl

/-! ### Claim theorems -/

/-- C1 (at-most-once acceptance): across any sequence of runs against the
same output file, each rehydrating its `processed_urls` from the url column
of the current main store, the accumulated main store never holds two rows
with the same url; and for any main store contents, the finalized output
(filter, sort, `drop_duplicates` by url) holds at most one row per url. -/
theorem C1_at_most_once :
    (∀ (cfg : Config) (runs : List (List (List Event))),
      ((multiRun cfg [] runs).map Item.url).Nodup) ∧
    (∀ rows : List FinRow, ((finalizeBT rows).map FinRow.url).Nodup) :=
  ⟨multiRun_nodup, finalizeBT_nodup⟩

/-- C2 (window correctness, amended): every accepted item is complete and
satisfies `FROM_DATE ≤ published_date ≤ TO_DATE`; a new, complete item dated
strictly before `FROM_DATE` makes `processItem` set the stop flag and change
nothing else; and once the stop flag is set the remaining items and sections
of the whole run are skipped — in `bangla_tribune.py` the stop is the global
`stop_requested`, not a per-section flag. -/
theorem C2_window_amended :
    (∀ (cfg : Config) (processed : List String) (store : List Item)
        (secs : List (List Event)),
      ∀ x ∈ (runBT cfg processed store secs).accepted,
        x.url ≠ "" ∧ x.title ≠ "" ∧
          ∃ d, x.pub = some d ∧ cfg.fromDate ≤ d ∧ d ≤ cfg.toDate) ∧
    (∀ (cfg : Config) (s : RunState) (it : Item),
      it.url ∉ s.processedUrls → it.url ≠ "" → it.title ≠ "" →
      (∃ d, it.pub = some d ∧ d < cfg.fromDate) →
      processItem cfg s it = { s with stopRequested := true }) ∧
    (∀ (cfg : Config) (s : RunState) (secs : List (List Event)),
      s.stopRequested = true → runSections cfg s secs = s) := by
  refine ⟨fun cfg p st secs x hx => runBT_window cfg p st secs x hx, ?_, runSections_stop⟩
  intro cfg s it hmem hu ht ⟨d, heq, hlt⟩
  unfold processItem
  rw [if_neg hmem, heq]
  dsimp only
  rw [if_neg (by simp [hu, ht]), if_pos hlt]

/-- C2 counterexample: the claim says the stop triggered by an item older
than `FROM_DATE` is scoped to the current section only, so the in-window
item of the second section should still be accepted.  In the
`bangla_tribune.py` loop the old item of section 1 sets the global
`stop_requested` flag, so the run accepts nothing at all — `cexGood`, a
complete, in-window item of section 2, is not in the accepted list. -/
theorem C2_window_cex :
    (runBT cexCfg [] [] [[ev cexOld], [ev cexGood]]).accepted = [] ∧
    cexOld.pub = some (-5) ∧ (-5 : Int) < cexCfg.fromDate ∧
    cexGood.url ≠ "" ∧ cexGood.title ≠ "" ∧ cexGood.pub = some 5 ∧
    cexCfg.fromDate ≤ 5 ∧ (5 : Int) ≤ cexCfg.toDate := by decide

/-- Witness for C2: the amended theorem applied at concrete inputs — the
old item flips the stop flag, a stopped run ignores a further section, and
an in-window item accepted by a concrete run satisfies the window bounds. -/
theorem C2_window_amended_witness :
    processItem cexCfg (initState [] []) cexOld =
      { initState [] [] with stopRequested := true } ∧
    runSections cexCfg { initState [] [] with stopRequested := true }
      [[ev cexGood]] = { initState [] [] with stopRequested := true } ∧
    (cexGood.url ≠ "" ∧ cexGood.title ≠ "" ∧
      ∃ d, cexGood.pub = some d ∧ cexCfg.fromDate ≤ d ∧ d ≤ cexCfg.toDate) := by
  refine ⟨?_, ?_, ?_⟩
  · exact C2_window_amended.2.1 cexCfg (initState [] []) cexOld (by decide)
      (by decide) (by decide) ⟨-5, by decide, by decide⟩
  · exact C2_window_amended.2.2 cexCfg _ [[ev cexGood]] rfl
  · exact C2_window_amended.1 cexCfg [] [] [[ev cexGood]] cexGood (by decide)

/-- C3 (flush contract, code bug): `save_progress` (four of the scripts)
appends the batch to the main store and overwrites the checkpoint with
exactly the batch, but `save_checkpoint` of `7july_somokal_scirpt.py`
overwrites its single file with just the latest (sorted, url-deduplicated)
batch and never appends: after flushing `[lostRow]` and then `[keptRow]`,
the file holds only `keptRow` and the earlier flushed row is gone, whereas
the `save_progress` writer retains both. -/
theorem C3_lossy_flush_eval :
    save_checkpoint [lostRow] none = some ⟨1, [lostRow]⟩ ∧
    save_checkpoint [keptRow] (save_checkpoint [lostRow] none) =
      some ⟨1, [keptRow]⟩ ∧
    lostRow ∉ [keptRow] ∧
    (save_progress [keptRow] (save_progress [lostRow] none none).1
        (save_progress [lostRow] none none).2).1 =
      some ⟨1, [lostRow, keptRow]⟩ ∧
    (save_progress [keptRow] (save_progress [lostRow] none none).1
        (save_progress [lostRow] none none).2).2 =
      some ⟨1, [keptRow]⟩ := by decide

/-- C4 (finalize contract, amended): the finalize pass of
`bangla_tribune.py` / `prothom_alo_scrapper.py` / `updated_somokal_scraper.py`
keeps only rows with a url and a parseable date, each kept row comes from
the store, the output is sorted by date descending with duplicate urls
removed keeping the first (most recent) occurrence, every complete url is
represented, the output file is rewritten and the checkpoint file deleted. -/
theorem C4_finalize_amended :
    (∀ rows : List FinRow,
      (∀ r ∈ finalizeBT rows, completeRow r = true ∧ r ∈ rows) ∧
      (finalizeBT rows).Sorted (byKeyDesc dateKey) ∧
      ((finalizeBT rows).map FinRow.url).Nodup ∧
      (∀ r ∈ finalizeBT rows,
        (List.insertionSort (byKeyDesc dateKey) (rows.filter completeRow)).find?
          (fun y => decide (y.url = r.url)) = some r) ∧
      (∀ r ∈ rows, completeRow r = true → ∃ y ∈ finalizeBT rows, y.url = r.url)) ∧
    (∀ (rows : List FinRow) (chk : Option (List FinRow)),
      finalizeRunBT (some rows) chk = (some (finalizeBT rows), none)) :=
  ⟨fun rows => ⟨finalizeBT_complete rows, finalizeBT_sorted rows,
    finalizeBT_nodup rows, finalizeBT_find rows, finalizeBT_covers rows⟩,
   fun _ _ => rfl⟩

/-- C4 counterexample: the claim says finalization drops every row missing
a parseable `published_date`.  `bonikbarta_script.py` runs
`dropna(subset=['url','published_date'])` before coercing the date column,
so a row whose date cell is present but unparseable (coerced to NaT only
afterwards) is kept in the output. -/
theorem C4_finalize_cex :
    finalizeBB [bbBadRow] = [bbBadRow] ∧
    bbBadRow.url.isSome = true ∧ bbBadRow.pubRaw = some "notadate" ∧
    rawKey bbBadRow = none := by decide

/-- Witness for C4: the amended finalize contract applied to a concrete
one-row store. -/
theorem C4_finalize_amended_witness :
    (completeRow c4row = true ∧ c4row ∈ [c4row]) ∧
    (∃ y ∈ finalizeBT [c4row], y.url = c4row.url) :=
  ⟨(C4_finalize_amended.1 [c4row]).1 c4row (by decide),
   (C4_finalize_amended.1 [c4row]).2.2.2.2 c4row (by decide) (by decide)⟩

/-- C5 (cancellation safety): a SIGINT observed at an item boundary only
sets the stop flag; the run then skips the remaining items and, in the
`finally:` block, flushes the in-memory batch, so on exit the main store
holds the pre-existing rows plus every item accepted before the signal was
observed — for every input and every cancellation point. -/
theorem C5_cancellation_flush :
    (∀ (cfg : Config) (processed : List String) (store : List Item)
        (secs : List (List Event)),
      (runBT cfg processed store secs).store =
        store ++ (runBT cfg processed store secs).accepted) ∧
    (∀ (cfg : Config) (s : RunState) (e : Event),
      s.stopRequested = false → e.sig = true →
      processEvent cfg s e = { s with stopRequested := true }) ∧
    (∀ s : RunState, (flushFinal s).store = s.store ++ s.batch) := by
  refine ⟨runBT_store_eq, ?_, flushFinal_store⟩
  intro cfg s e hstop hsig
  unfold processEvent
  rw [if_neg (by simp [hstop]), if_pos hsig]

/-- Witness for C5: a concrete cancelled run — the signal arrives before
the second item, the first item is still flushed and persisted. -/
theorem C5_cancellation_flush_witness :
    (runBT cexCfg [] [] [[ev cexGood, ⟨true, cexOld⟩]]).store =
      [] ++ (runBT cexCfg [] [] [[ev cexGood, ⟨true, cexOld⟩]]).accepted ∧
    processEvent cexCfg (initState [] []) ⟨true, cexOld⟩ =
      { initState [] [] with stopRequested := true } := by
  refine ⟨?_, ?_⟩
  · exact C5_cancellation_flush.1 cexCfg [] [] [[ev cexGood, ⟨true, cexOld⟩]]
  · exact C5_cancellation_flush.2.1 cexCfg (initState [] []) ⟨true, cexOld⟩ rfl rfl

/-- C6 (idempotent finalize): running the file-level finalize pass twice in
a row, with no flushes in between, produces the identical output file and
checkpoint state both times. -/
theorem C6_finalize_idem :
    ∀ (main chk : Option (List FinRow)),
      finalizeRunBT (finalizeRunBT main chk).1 (finalizeRunBT main chk).2 =
        finalizeRunBT main chk := by
  intro main chk
  cases main with
  | none => rfl
  | some rows =>
    show finalizeRunBT (some (finalizeBT rows)) none = _
    simp only [finalizeRunBT]
    rw [finalizeBT_idem]

/-- C7 (stall termination, amended): if the element count is UNCHANGED for
`no_progress_limit` consecutive expansion rounds the section loop ends as
stalled (not an error); a round in which the count changed resets the
no-progress counter to zero; and however a section ends, every accepted
item is flushed into the main store. -/
theorem C7_stall_amended :
    (∀ (limit : Nat) (counts : List Nat) (noNew : Nat)
        (rest : List (Nat × Option Nat)),
      counts ≠ [] → limit ≤ noNew + counts.length →
      stallSteps limit noNew (counts.map (fun c => (c, some c)) ++ rest) =
        .stalled) ∧
    (∀ (limit noNew pre n : Nat) (rest : List (Nat × Option Nat)),
      n ≠ pre → 1 ≤ limit →
      stallSteps limit noNew ((pre, some n) :: rest) = stallSteps limit 0 rest) ∧
    (∀ (cfg : Config) (processed : List String) (store : List Item)
        (secs : List (List Event)),
      (runBT cfg processed store secs).store =
        store ++ (runBT cfg processed store secs).accepted) :=
  ⟨stallSteps_stalls, stallSteps_reset, runBT_store_eq⟩

/-- C7 counterexample: the claim says `no_progress_limit` consecutive
rounds with NO INCREASE in the count terminate the section as stalled.
With `MAX_NO_NEW_ARTICLES = 5` as in `bangla_tribune.py`, five consecutive
rounds in which the count strictly DECREASES (no increase each round) reset
the counter every round — after all five the loop is still running with the
counter at zero, not stalled. -/
theorem C7_stall_cex :
    stallSteps 5 0 cexRounds = .running 0 ∧
    (StallOutcome.running 0 ≠ .stalled) ∧
    cexRounds.length = 5 ∧
    (∀ r ∈ cexRounds, r.2.getD 0 < r.1) := by decide

/-- Witness for C7: five unchanged rounds stall a limit-5 loop, and a round
with a changed count resets the counter. -/
theorem C7_stall_amended_witness :
    stallSteps 5 0 (([7, 7, 7, 7, 7] : List Nat).map (fun c => (c, some c)) ++ []) =
      .stalled ∧
    stallSteps 5 2 [(6, some 9)] = stallSteps 5 0 [] := by
  refine ⟨?_, ?_⟩
  · exact C7_stall_amended.1 5 [7, 7, 7, 7, 7] 0 [] (by decide) (by decide)
  · exact C7_stall_amended.2.1 5 2 6 9 [] (by decide) (by decide)

/-- C8 (ledger rehydration fails open): a missing file, an empty file, and
a file without a `url` column all rehydrate to the empty set (the read
errors are caught and logged, never fatal), and a present well-formed file
rehydrates to exactly the set of url values stored in its url column. -/
theorem C8_rehydration :
    load_processed_urls none = [] ∧
    load_processed_urls (some []) = [] ∧
    (∀ (header : List String) (rows : List (List String)),
      header.findIdx? (fun h => h = "url") = none →
      load_processed_urls (some (header :: rows)) = []) ∧
    (∀ (header : List String) (rows : List (List String)) (i : Nat),
      header.findIdx? (fun h => h = "url") = some i →
      (∀ r ∈ rows, cellOK i r = true) →
      (load_processed_urls (some (header :: rows))).toFinset =
        (rows.filterMap (fun r => r.get? i)).toFinset) := by
  refine ⟨rfl, rfl, ?_, ?_⟩
  · intro header rows h
    simp [load_processed_urls, readUrlColumn, h]
  · intro header rows i hidx hwf
    simp only [load_processed_urls, readUrlColumn, hidx]
    rw [dedup_toFinset]
    congr 1
    apply List.filterMap_congr
    intro r hr
    have h := hwf r hr
    cases hget : r.get? i with
    | none => rfl
    | some s =>
      simp only [cellOK, hget, decide_eq_true_eq] at h
      simp [hget, h]

/-- Witness for C8: rehydration from a concrete two-row store returns
exactly its url column, and a concrete malformed store (no url column)
rehydrates to the empty set. -/
theorem C8_rehydration_witness :
    (load_processed_urls (some (wfHeader :: wfRows))).toFinset =
      (wfRows.filterMap (fun r => r.get? 0)).toFinset ∧
    load_processed_urls (some [["x"], ["u"]]) = [] := by
  refine ⟨?_, ?_⟩
  · exact C8_rehydration.2.2.2 wfHeader wfRows 0 (by decide) (by decide)
  · exact C8_rehydration.2.2.1 ["x"] [["u"]] (by decide)

/-- C9 (global cap, amended): with a nonzero cap `m` configured, a run that
starts with `p` rehydrated urls accepts at most `max (m - p) 1` items — the
check runs only AFTER an acceptance, so a run whose rehydrated ledger
already meets the cap still accepts one item before the global stop; a cap
of `None` or `0` is inert (Python truthiness); and once the global stop is
set, every remaining item and section of the run is skipped. -/
theorem C9_cap_amended :
    (∀ (cfg : Config) (m : Nat), cfg.maxArticles = some m → 1 ≤ m →
      ∀ (p : List String) (st : List Item) (secs : List (List Event)),
        (runBT cfg p st secs).accepted.length ≤ max (m - p.length) 1) ∧
    (∀ n : Nat, capHit none n = false ∧ capHit (some 0) n = false) ∧
    (∀ (cfg : Config) (s : RunState) (secs : List (List Event)),
      s.stopRequested = true → runSections cfg s secs = s) :=
  ⟨fun cfg m hm hm1 p st secs => runBT_cap_bound cfg m hm hm1 p st secs,
   fun _ => ⟨rfl, rfl⟩, runSections_stop⟩

/-- C9 counterexample: the claim says acceptance ceases immediately once
the lifetime accepted count reaches the cap.  With cap 1 and one url
already rehydrated (lifetime count 1 ≥ cap), the run still accepts one more
item, because the check only runs after an acceptance. -/
theorem C9_cap_cex :
    capCfg.maxArticles = some 1 ∧ (["u0"] : List String).length ≥ 1 ∧
    (runBT capCfg ["u0"] [] [[ev capItem]]).accepted = [capItem] := by decide

/-- Witness for C9: the cap bound applied to the concrete overshoot run
(its accepted count is exactly the permitted `max (1 - 1) 1 = 1`), plus a
stopped state ignoring a further section. -/
theorem C9_cap_amended_witness :
    (runBT capCfg ["u0"] [] [[ev capItem]]).accepted.length ≤
      max (1 - (["u0"] : List String).length) 1 ∧
    runSections capCfg { initState [] [] with stopRequested := true }
      [[ev capItem]] = { initState [] [] with stopRequested := true } := by
  refine ⟨?_, ?_⟩
  · exact C9_cap_amended.1 capCfg 1 rfl (by decide) ["u0"] [] [[ev capItem]]
  · exact C9_cap_amended.2.2 capCfg _ [[ev capItem]] rfl

/-- C10 (date-parser totality): `parse_samakal_date` maps `None` and the
empty (falsy) string to `None`, maps any string whose cleaned form does not
match the `(\d{1,2})\s*(\w+)\s*(\d{4})` pattern to `None`, and on every
input returns either a date or `None` — every Python exception along the
way (`ValueError`/`TypeError` from `strptime`, handled by the `except`
clause) is modelled by the `Option` result, so nothing propagates. -/
theorem C10_parse_totality :
    parse_samakal_date none = none ∧
    parse_samakal_date (some "") = none ∧
    (∀ s : String, matchDMY (cleanSamakal s) = none →
      parse_samakal_date (some s) = none) ∧
    (∀ ds : Option String, parse_samakal_date ds = none ∨
      ∃ ymd, parse_samakal_date ds = some ymd) := by
  refine ⟨rfl, by decide, ?_, ?_⟩
  · intro s h
    by_cases hs : s = ""
    · simp [parse_samakal_date, hs]
    · simp [parse_samakal_date, hs, h]
  · intro ds
    cases hp : parse_samakal_date ds with
    | none => exact Or.inl rfl
    | some ymd => exact Or.inr ⟨ymd, rfl⟩

/-- Witness for C10: a concrete non-matching string parses to `None` via
the theorem, with the non-match hypothesis discharged by evaluation. -/
theorem C10_parse_totality_witness :
    matchDMY (cleanSamakal "hello") = none ∧
    parse_samakal_date (some "hello") = none :=
  ⟨by decide, C10_parse_totality.2.2.1 "hello" (by decide)⟩
